import Mathlib

/-!
Shallow embedding of `doxhub/utils/version.py` (the DoxHub version utility
module) and proofs about its behaviour.

The module computes a PEP-440-style version string from a 5-element version
descriptor `(major, minor, micro, release_kind, release_serial)`, optionally
appending a development suffix derived from the latest git changeset
timestamp.  Python tuples of ints and strings are embedded as `List PyVal`;
the assertion failures of `get_complete_version` and the `KeyError` of a dict
lookup become `Except String`; the process-wide `functools.lru_cache` state of
`get_git_changeset` becomes an explicit `ProcState` threaded through the
functions, instrumented with counters for how often the cached function is
entered, how often its underlying body runs, and how often the git subprocess
is invoked.
-/

namespace DoxHub

/-- Python values that can appear in a version descriptor tuple: integers and
strings. -/
inductive PyVal where
  | intV : Int → PyVal
  | strV : String → PyVal
deriving DecidableEq, Repr

open PyVal

/-- Python `==` on descriptor elements: equality within a type, `False` across
the int/str types (as in CPython, where `0 == "x"` is `False`). -/
def pyEq : PyVal → PyVal → Bool
  | intV a, intV b => a == b
  | strV a, strV b => a == b
  | _, _ => false

/-- Python `str()` on descriptor elements. -/
def pyStr : PyVal → String
  | intV n => toString n
  | strV s => s

/-- Strip leading and trailing whitespace, as `int(str)` ignores surrounding
whitespace (ASCII whitespace modelled). -/
def stripWs (l : List Char) : List Char :=
  ((l.dropWhile Char.isWhitespace).reverse.dropWhile Char.isWhitespace).reverse

/-- Accumulating parse of a Python `digitpart`: decimal digits where a single
underscore may separate two digits. -/
def pyDigitsGo (acc : Nat) : List Char → Option Nat
  | [] => some acc
  | '_' :: c :: cs =>
      if c.isDigit then pyDigitsGo (acc * 10 + (c.toNat - 48)) cs else none
  | ['_'] => none
  | c :: cs =>
      if c.isDigit then pyDigitsGo (acc * 10 + (c.toNat - 48)) cs else none

/-- Parse a nonempty Python `digitpart` (no sign). -/
def pyDigits? : List Char → Option Nat
  | [] => none
  | c :: cs => if c.isDigit then pyDigitsGo (c.toNat - 48) cs else none

/-- Python `int(s)` for a base-10 string: surrounding whitespace, an optional
sign, then a digit run; anything else raises `ValueError`, modelled as
`none`. -/
def pyInt? (s : String) : Option Int :=
  match stripWs s.toList with
  | '+' :: rest => (pyDigits? rest).map (fun n => (n : Int))
  | '-' :: rest => (pyDigits? rest).map (fun n => -(n : Int))
  | rest => (pyDigits? rest).map (fun n => (n : Int))

/-- Calendar date and time-of-day of a UTC instant. -/
structure DateTimeUTC where
  year : Nat
  month : Nat
  day : Nat
  hour : Nat
  minute : Nat
  second : Nat
deriving DecidableEq, Repr

/-- Proleptic Gregorian civil date from a count of days since the Unix epoch
(1970-01-01), by the standard era-decomposition algorithm; this is the date
arithmetic behind CPython's timestamp-to-UTC conversion. -/
def civilFromDays (z0 : Int) : Int × Nat × Nat :=
  let z : Int := z0 + 719468
  let era : Int := z / 146097
  let doe : Nat := (z % 146097).toNat
  let yoe : Nat := (doe - doe / 1460 + doe / 36524 - doe / 146096) / 365
  let doy : Nat := doe - (365 * yoe + yoe / 4 - yoe / 100)
  let mp : Nat := (5 * doy + 2) / 153
  let d : Nat := doy - (153 * mp + 2) / 5 + 1
  let m : Nat := if mp < 10 then mp + 3 else mp - 9
  (era * 400 + (yoe : Int) + (if m ≤ 2 then 1 else 0), m, d)

/-- CPython `datetime.fromtimestamp(ts, timezone.utc)`: split the timestamp
into days and seconds-of-day by floor division, convert the days to a civil
date, and fail with `ValueError` (modelled as `none`) when the resulting year
falls outside `datetime`'s supported range 1..9999. -/
def fromtimestampUTC (ts : Int) : Option DateTimeUTC :=
  let days : Int := ts / 86400
  let sod : Nat := (ts % 86400).toNat
  let ymd := civilFromDays days
  if 1 ≤ ymd.1 ∧ ymd.1 ≤ 9999 then
    some ⟨ymd.1.toNat, ymd.2.1, ymd.2.2, sod / 3600, sod % 3600 / 60, sod % 60⟩
  else none

/-- Zero-pad a number to two digits, as the C `strftime` directives `%m`,
`%d`, `%H`, `%M`, `%S` do. -/
def pad2 (n : Nat) : String :=
  if n < 10 then "0" ++ toString n else toString n

/-- The format `strftime("%Y%m%d%H%M%S")` on the reference platform (glibc):
`%Y` prints the year unpadded, the other directives zero-pad to two digits. -/
def strftimeYmdHMS (dt : DateTimeUTC) : String :=
  toString dt.year ++ pad2 dt.month ++ pad2 dt.day ++
    pad2 dt.hour ++ pad2 dt.minute ++ pad2 dt.second

/-- Environment of one process: whether the module has a backing source file
(`"__file__" in globals()`), and the text captured on standard output from the
git subprocess when it is invoked. -/
structure GitEnv where
  hasFile : Bool
  stdout : String
deriving DecidableEq, Repr

/-- One uncached run of the body of `get_git_changeset`: return `None` without
launching a subprocess when there is no source location; otherwise invoke the
subprocess, parse its output with `int()` and convert with `fromtimestamp`,
turning either `ValueError` into `None`.  The second component records whether
the subprocess was invoked. -/
def gitChangesetRun (env : GitEnv) : Option String × Bool :=
  if env.hasFile then
    match pyInt? env.stdout with
    | none => (none, true)
    | some ts =>
      match fromtimestampUTC ts with
      | none => (none, true)
      | some dt => (some (strftimeYmdHMS dt), true)
  else (none, false)

/-- Process state threaded through the stateful functions: the environment,
the `functools.lru_cache` cell of `get_git_changeset`, and instrumentation
counters (how often the body of `get_git_changeset` ran, how often a
subprocess was launched, how often the cached function was entered). -/
structure ProcState where
  env : GitEnv
  cache : Option (Option String)
  runCount : Nat
  subprocCount : Nat
  queryCount : Nat
deriving DecidableEq, Repr

/-- State of a fresh process: empty cache, no work done yet. -/
def initState (env : GitEnv) : ProcState :=
  { env := env, cache := none, runCount := 0, subprocCount := 0, queryCount := 0 }

/-- The function `get_git_changeset` including its `@functools.lru_cache`
wrapper: on a hit return the cached value, on a miss run the body once and
store its result (a cached `None` is also a hit thereafter). -/
def get_git_changeset (s : ProcState) : Option String × ProcState :=
  match s.cache with
  | some v => (v, { s with queryCount := s.queryCount + 1 })
  | none =>
    let r := gitChangesetRun s.env
    (r.1, { s with
            cache := some r.1
            runCount := s.runCount + 1
            subprocCount := s.subprocCount + (if r.2 then 1 else 0)
            queryCount := s.queryCount + 1 })

/-- The four admissible `release_kind` literals, as checked by
`get_complete_version`'s second assert. -/
def kindLits : List PyVal := [strV "alpha", strV "beta", strV "rc", strV "release"]

/-- Modelled from the spec: the package-wide `doxhub.VERSION` constant (its
defining file is not under `src/`); a fixed valid 5-element descriptor, read
when no explicit descriptor is passed. -/
def VERSION : List PyVal := [intV 1, intV 0, intV 0, strV "alpha", intV 0]

/-- The function `get_complete_version`: return the package default when the
argument is omitted, otherwise assert `len(version) == 5` and
`version[3] in ('alpha', 'beta', 'rc', 'release')` and return the argument
unchanged. -/
def get_complete_version (version : Option (List PyVal)) : Except String (List PyVal) :=
  match version with
  | none => .ok VERSION
  | some v =>
    if v.length = 5 then
      if v.getD 3 (intV 0) ∈ kindLits then .ok v
      else .error "AssertionError"
    else .error "AssertionError"

/-- The function `get_main_version`: complete the descriptor, then join the
first two elements (three when `version[2] != 0`) with `"."` after `str()`. -/
def get_main_version (version : Option (List PyVal)) : Except String String := do
  let v ← get_complete_version version
  let parts : Nat := if pyEq (v.getD 2 (intV 0)) (intV 0) then 2 else 3
  return String.intercalate "." ((v.take parts).map pyStr)

/-- The dict `{'alpha': 'a', 'beta': 'b', 'rc': 'rc'}` of `get_version`, as a
lookup returning `none` exactly where the Python subscript raises
`KeyError`. -/
def suffixMapping : PyVal → Option String
  | strV "alpha" => some "a"
  | strV "beta" => some "b"
  | strV "rc" => some "rc"
  | _ => none

/-- The function `get_version`: complete the descriptor, format the main
version, then append the suffix.  In the pre-alpha branch
(`version[3] == 'alpha' and version[4] == 0`) query `get_git_changeset` and
append `".dev" + changeset` when the result is truthy; in the non-release
branch look `version[3]` up in the short-code mapping and append the code
followed by `str(version[4])`; otherwise append nothing. -/
def get_version (version : Option (List PyVal)) (s : ProcState) :
    Except String (String × ProcState) := do
  let v ← get_complete_version version
  let main ← get_main_version (some v)
  if pyEq (v.getD 3 (intV 0)) (strV "alpha") && pyEq (v.getD 4 (intV 0)) (intV 0) then
    let r := get_git_changeset s
    match r.1 with
    | some t => if t.isEmpty then return (main, r.2) else return (main ++ ".dev" ++ t, r.2)
    | none => return (main, r.2)
  else if !(pyEq (v.getD 3 (intV 0)) (strV "release")) then
    match suffixMapping (v.getD 3 (intV 0)) with
    | some code => return (main ++ code ++ pyStr (v.getD 4 (intV 0)), s)
    | none => Except.error "KeyError"
  else
    return (main, s)

/-- Shorthand for a well-typed 5-element descriptor
`(major, minor, micro, release_kind, release_serial)`. -/
def mkDesc (ma mi mc : Nat) (k : String) (se : Nat) : List PyVal :=
  [intV ma, intV mi, intV mc, strV k, intV se]

/-- The four admissible `release_kind` strings. -/
def kindStrs : List String := ["alpha", "beta", "rc", "release"]

/-- Number of decimal digits of a natural number (one digit for zero). -/
def numDigits (n : Nat) : Nat :=
  if h : n < 10 then 1 else numDigits (n / 10) + 1
decreasing_by omega

/-- Split a character list at every `'.'`, keeping empty components. -/
def splitOnDot : List Char → List (List Char)
  | [] => [[]]
  | c :: rest =>
    if c = '.' then [] :: splitOnDot rest
    else
      match splitOnDot rest with
      | [] => [[c]]
      | g :: gs => (c :: g) :: gs

/-- Test for a nonempty all-digit component, the regex `\d+`. -/
def isDigitGroup (l : List Char) : Bool :=
  !l.isEmpty && l.all Char.isDigit

/-- Decision procedure for the regex `^\d+\.\d+(\.\d+)?$`: two or three
nonempty all-digit components separated by dots. -/
def matchesMainVersionRe (s : String) : Bool :=
  match splitOnDot s.toList with
  | [a, b] => isDigitGroup a && isDigitGroup b
  | [a, b, c] => isDigitGroup a && isDigitGroup b && isDigitGroup c
  | _ => false

/-- Cache soundness: a filled memoization cell holds exactly the value the
body of `get_git_changeset` computes in this process's environment.  It holds
in a fresh process and is preserved by every call. -/
def StateWF (s : ProcState) : Prop :=
  ∀ v, s.cache = some v → v = (gitChangesetRun s.env).1

/-- Results and final state of `n` successive calls to `get_git_changeset`. -/
def gitCalls : Nat → ProcState → List (Option String) × ProcState
  | 0, s => ([], s)
  | n + 1, s =>
    let r := get_git_changeset s
    let rs := gitCalls n r.2
    (r.1 :: rs.1, rs.2)

/-! Auxiliary lemmas about decimal representations of natural numbers. -/

lemma digitChar_isDigit {m : Nat} (h : m < 10) : (Nat.digitChar m).isDigit = true := by
  interval_cases m <;> decide

lemma toDigitsCore_digits (f : Nat) :
    ∀ (n : Nat) (acc : List Char), (∀ c ∈ acc, c.isDigit = true) →
      ∀ c ∈ Nat.toDigitsCore 10 f n acc, c.isDigit = true := by
  induction f with
  | zero => intro n acc hacc c hc; exact hacc c hc
  | succ f ih =>
    intro n acc hacc c hc
    simp only [Nat.toDigitsCore] at hc
    by_cases h10 : n / 10 = 0
    · rw [if_pos h10] at hc
      rcases List.mem_cons.mp hc with h | h
      · exact h ▸ digitChar_isDigit (Nat.mod_lt n (by omega))
      · exact hacc c h
    · rw [if_neg h10] at hc
      refine ih (n / 10) _ ?_ c hc
      intro c' hc'
      rcases List.mem_cons.mp hc' with h | h
      · exact h ▸ digitChar_isDigit (Nat.mod_lt n (by omega))
      · exact hacc c' h

lemma numDigits_base {n : Nat} (h : n < 10) : numDigits n = 1 := by
  rw [numDigits, dif_pos h]

lemma numDigits_step {n : Nat} (h : 10 ≤ n) : numDigits n = numDigits (n / 10) + 1 := by
  rw [numDigits, dif_neg (by omega)]

lemma toDigitsCore_length_eq (f : Nat) :
    ∀ (n : Nat) (acc : List Char), n < f →
      (Nat.toDigitsCore 10 f n acc).length = numDigits n + acc.length := by
  induction f with
  | zero => intro n acc h; omega
  | succ f ih =>
    intro n acc hn
    simp only [Nat.toDigitsCore]
    by_cases h10 : n / 10 = 0
    · rw [if_pos h10, numDigits_base (by omega)]
      simp only [List.length_cons]
      omega
    · have h10' : 10 ≤ n := by omega
      rw [if_neg h10, ih (n / 10) _ (by omega), numDigits_step h10']
      simp only [List.length_cons]
      omega

lemma repr_length_eq (n : Nat) : (Nat.repr n).length = numDigits n := by
  show (Nat.toDigits 10 n).asString.length = numDigits n
  have : (Nat.toDigits 10 n).asString.length = (Nat.toDigits 10 n).length := rfl
  rw [this, Nat.toDigits, toDigitsCore_length_eq (n + 1) n [] (by omega)]
  simp

lemma repr_digits (n : Nat) : ∀ c ∈ (Nat.repr n).toList, c.isDigit = true := by
  intro c hc
  have : (Nat.repr n).toList = Nat.toDigitsCore 10 (n + 1) n [] := rfl
  rw [this] at hc
  exact toDigitsCore_digits (n + 1) n [] (by simp) c hc

lemma numDigits_pos (n : Nat) : 1 ≤ numDigits n := by
  rw [numDigits]; split <;> omega

lemma numDigits_le_of_lt_pow (k : Nat) : ∀ n, n < 10 ^ (k + 1) → numDigits n ≤ k + 1 := by
  induction k with
  | zero =>
    intro n h
    exact le_of_eq (numDigits_base (by simpa using h))
  | succ k ih =>
    intro n h
    by_cases h1 : n < 10
    · rw [numDigits_base h1]; omega
    · rw [numDigits_step (by omega)]
      have hd : n / 10 < 10 ^ (k + 1) := by
        rw [pow_succ] at h
        exact (Nat.div_lt_iff_lt_mul (by norm_num)).mpr h
      have := ih (n / 10) hd
      omega

lemma numDigits_ge_of_pow_le (k : Nat) : ∀ n, 10 ^ k ≤ n → k + 1 ≤ numDigits n := by
  induction k with
  | zero => intro n _; exact numDigits_pos n
  | succ k ih =>
    intro n h
    have h10 : 10 ≤ n := by
      calc 10 = 10 ^ 1 := by norm_num
      _ ≤ 10 ^ (k + 1) := Nat.pow_le_pow_right (by norm_num) (by omega)
      _ ≤ n := h
    rw [numDigits_step h10]
    have hd : 10 ^ k ≤ n / 10 := by
      rw [Nat.le_div_iff_mul_le (by norm_num)]
      calc 10 ^ k * 10 = 10 ^ (k + 1) := (pow_succ 10 k).symm
      _ ≤ n := h
    have := ih (n / 10) hd
    omega

lemma toString_nat (n : Nat) : toString n = Nat.repr n := rfl

lemma toList_append (a b : String) : (a ++ b).toList = a.toList ++ b.toList :=
  String.data_append a b

lemma repr_ne_empty (n : Nat) : Nat.repr n ≠ "" := by
  intro h
  have h1 := repr_length_eq n
  have h2 := numDigits_pos n
  rw [h] at h1
  simp at h1
  omega

/-! Lemmas about the two-digit padding and the `strftime` output. -/

lemma pad2_length {n : Nat} (h : n < 100) : (pad2 n).length = 2 := by
  rw [pad2]
  by_cases h1 : n < 10
  · rw [if_pos h1, String.length_append, toString_nat, repr_length_eq, numDigits_base h1]
    rfl
  · rw [if_neg h1, toString_nat, repr_length_eq]
    have a := numDigits_ge_of_pow_le 1 n (by simp only [pow_one]; omega)
    have b := numDigits_le_of_lt_pow 1 n (by norm_num; omega)
    omega

lemma pad2_digits (n : Nat) : ∀ c ∈ (pad2 n).toList, c.isDigit = true := by
  intro c hc
  rw [pad2] at hc
  by_cases h1 : n < 10
  · rw [if_pos h1, toList_append] at hc
    rcases List.mem_append.mp hc with h | h
    · rcases List.mem_singleton.mp h with rfl
      rfl
    · exact repr_digits n c h
  · rw [if_neg h1] at hc
    exact repr_digits n c hc

lemma strftime_length (dt : DateTimeUTC) (hm : dt.month < 100) (hd : dt.day < 100)
    (hh : dt.hour < 100) (hmin : dt.minute < 100) (hs : dt.second < 100) :
    (strftimeYmdHMS dt).length = numDigits dt.year + 10 := by
  rw [strftimeYmdHMS]
  simp only [String.length_append]
  rw [toString_nat, repr_length_eq, pad2_length hm, pad2_length hd, pad2_length hh,
    pad2_length hmin, pad2_length hs]

lemma strftime_digits (dt : DateTimeUTC) : ∀ c ∈ (strftimeYmdHMS dt).toList, c.isDigit = true := by
  intro c hc
  rw [strftimeYmdHMS] at hc
  simp only [toList_append, List.mem_append] at hc
  rcases hc with ((((h | h) | h) | h) | h) | h
  · rw [toString_nat] at h
    exact repr_digits _ c h
  all_goals exact pad2_digits _ c h

/-! Bounds on the civil-date conversion. -/

lemma civilFromDays_bounds (z0 : Int) :
    (civilFromDays z0).2.1 < 100 ∧ (civilFromDays z0).2.2 < 100 := by
  have h1 : 0 ≤ (z0 + 719468) % 146097 := Int.emod_nonneg _ (by norm_num)
  have h2 : (z0 + 719468) % 146097 < 146097 := Int.emod_lt_of_pos _ (by norm_num)
  simp only [civilFromDays]
  split <;> omega

lemma fromtimestampUTC_fields {ts : Int} {dt : DateTimeUTC} (h : fromtimestampUTC ts = some dt) :
    1 ≤ dt.year ∧ dt.year ≤ 9999 ∧ dt.month < 100 ∧ dt.day < 100 ∧
      dt.hour < 100 ∧ dt.minute < 100 ∧ dt.second < 100 := by
  have hmd := civilFromDays_bounds (ts / 86400)
  have hs1 : 0 ≤ ts % 86400 := Int.emod_nonneg _ (by norm_num)
  have hs2 : ts % 86400 < 86400 := Int.emod_lt_of_pos _ (by norm_num)
  obtain ⟨hmd1, hmd2⟩ := hmd
  simp only [fromtimestampUTC] at h
  split at h
  case isTrue hy =>
    injection h with h
    subst h
    refine ⟨?_, ?_, ?_, ?_, ?_, ?_, ?_⟩ <;> simp <;> omega
  case isFalse hy => exact absurd h (by simp)

lemma gitChangesetRun_success {env : GitEnv} {t : String}
    (h : (gitChangesetRun env).1 = some t) :
    ∃ ts dt, pyInt? env.stdout = some ts ∧ fromtimestampUTC ts = some dt ∧
      t = strftimeYmdHMS dt := by
  simp only [gitChangesetRun] at h
  split at h
  · split at h
    next hp => simp at h
    next ts hp =>
      split at h
      next hf => simp at h
      next dt hf =>
        simp only at h
        exact ⟨ts, dt, hp, hf, (Option.some_inj.mp h).symm⟩
  · simp at h

lemma run_success_shape {env : GitEnv} {t : String} (h : (gitChangesetRun env).1 = some t) :
    (∀ c ∈ t.toList, c.isDigit = true) ∧ 11 ≤ t.length ∧ t.length ≤ 14 := by
  obtain ⟨ts, dt, _, hf, rfl⟩ := gitChangesetRun_success h
  obtain ⟨hy1, hy2, hm, hd, hh, hmin, hsec⟩ := fromtimestampUTC_fields hf
  refine ⟨strftime_digits dt, ?_, ?_⟩
  · rw [strftime_length dt hm hd hh hmin hsec]
    have := numDigits_pos dt.year
    omega
  · rw [strftime_length dt hm hd hh hmin hsec]
    have := numDigits_le_of_lt_pow 3 dt.year (by norm_num; omega)
    omega

lemma run_success_ne_empty {env : GitEnv} {t : String}
    (h : (gitChangesetRun env).1 = some t) : t.isEmpty = false := by
  have h1 := (run_success_shape h).2.1
  cases he : t.isEmpty
  · rfl
  · rw [String.isEmpty_iff] at he
    rw [he] at h1
    simp at h1

/-! Lemmas about the memoized `get_git_changeset`. -/

lemma call_of_cache_none {s : ProcState} (h : s.cache = none) :
    get_git_changeset s =
      ((gitChangesetRun s.env).1, { s with
        cache := some (gitChangesetRun s.env).1
        runCount := s.runCount + 1
        subprocCount := s.subprocCount + (if (gitChangesetRun s.env).2 then 1 else 0)
        queryCount := s.queryCount + 1 }) := by
  simp only [get_git_changeset, h]

lemma call_of_cache_some {s : ProcState} {v : Option String} (h : s.cache = some v) :
    get_git_changeset s = (v, { s with queryCount := s.queryCount + 1 }) := by
  simp only [get_git_changeset, h]

lemma StateWF_init (env : GitEnv) : StateWF (initState env) := by
  intro v hv
  simp [initState] at hv

lemma call_result_of_WF {s : ProcState} (hs : StateWF s) :
    (get_git_changeset s).1 = (gitChangesetRun s.env).1 := by
  cases h : s.cache with
  | none => rw [call_of_cache_none h]
  | some v => rw [call_of_cache_some h]; exact hs v h

lemma call_env (s : ProcState) : (get_git_changeset s).2.env = s.env := by
  cases h : s.cache with
  | none => rw [call_of_cache_none h]
  | some v => rw [call_of_cache_some h]

lemma StateWF_call {s : ProcState} (hs : StateWF s) : StateWF (get_git_changeset s).2 := by
  cases h : s.cache with
  | none =>
    rw [call_of_cache_none h]
    intro v hv
    simp only at hv
    exact (Option.some_inj.mp hv).symm
  | some v0 =>
    rw [call_of_cache_some h]
    intro v hv
    simp only at hv ⊢
    exact hs v hv

lemma gitCalls_cached (n : Nat) :
    ∀ (s : ProcState) (v : Option String), s.cache = some v →
      gitCalls n s = (List.replicate n v, { s with queryCount := s.queryCount + n }) := by
  induction n with
  | zero =>
    intro s v h
    simp [gitCalls]
  | succ n ih =>
    intro s v h
    rw [gitCalls, call_of_cache_some h]
    simp only
    rw [ih _ v (by simpa using h)]
    simp [List.replicate_succ, ProcState.mk.injEq]
    omega

/-! Lemmas about descriptor completion and main-version formatting. -/

lemma mem_kindLits {k : String} (hk : k ∈ kindStrs) : strV k ∈ kindLits := by
  fin_cases hk <;> decide

lemma complete_mkDesc (ma mi mc se : Nat) (k : String) (hk : k ∈ kindStrs) :
    get_complete_version (some (mkDesc ma mi mc k se)) = .ok (mkDesc ma mi mc k se) := by
  have hm : (mkDesc ma mi mc k se).getD 3 (intV 0) ∈ kindLits := mem_kindLits hk
  simp only [get_complete_version]
  rw [if_pos (by simp [mkDesc]), if_pos hm]

lemma intercalate_two (a b : String) : String.intercalate "." [a, b] = a ++ "." ++ b := rfl

lemma intercalate_three (a b c : String) :
    String.intercalate "." [a, b, c] = a ++ "." ++ b ++ "." ++ c := rfl

lemma pyStr_intV_nat (n : Nat) : pyStr (intV (n : Int)) = Nat.repr n := rfl

lemma main_eval (ma mi mc se : Nat) (k : String) (hk : k ∈ kindStrs) :
    get_main_version (some (mkDesc ma mi mc k se)) =
      .ok (if mc = 0 then Nat.repr ma ++ "." ++ Nat.repr mi
           else Nat.repr ma ++ "." ++ Nat.repr mi ++ "." ++ Nat.repr mc) := by
  have hc := complete_mkDesc ma mi mc se k hk
  by_cases hmc : mc = 0
  · subst hmc
    rw [if_pos rfl]
    simp only [get_main_version, hc]
    rfl
  · rw [if_neg hmc]
    have hb : pyEq ((mkDesc ma mi mc k se).getD 2 (intV 0)) (intV 0) = false := by
      show ((mc : Int) == 0) = false
      simp only [beq_eq_false_iff_ne, ne_eq]
      exact_mod_cast hmc
    simp only [get_main_version, hc]
    show Except.ok _ = _
    rw [hb]
    rfl

/-! Evaluation lemmas for the three suffix branches of `get_version`. -/

lemma ok_bind {α β : Type} (a : α) (f : α → Except String β) :
    (Except.ok (ε := String) a >>= f) = f a := rfl

lemma pure_eq_ok {β : Type} (b : β) : (pure b : Except String β) = Except.ok b := rfl

lemma get_version_dev (vo : Option (List PyVal)) (ma mi mc : Nat)
    (hc : get_complete_version vo = .ok (mkDesc ma mi mc "alpha" 0))
    (s : ProcState) (hs : StateWF s) (main : String)
    (hmain : get_main_version (some (mkDesc ma mi mc "alpha" 0)) = .ok main) :
    get_version vo s =
      .ok (main ++ (match (gitChangesetRun s.env).1 with
            | some t => ".dev" ++ t
            | none => ""), (get_git_changeset s).2) := by
  have hgc := call_result_of_WF hs
  simp only [get_version, hc, hmain, ok_bind]
  rw [if_pos (show (pyEq ((mkDesc ma mi mc "alpha" 0).getD 3 (intV 0)) (strV "alpha") &&
      pyEq ((mkDesc ma mi mc "alpha" 0).getD 4 (intV 0)) (intV 0)) = true from rfl)]
  rw [hgc]
  cases hr : (gitChangesetRun s.env).1 with
  | none =>
    simp only [pure_eq_ok]
    simp
  | some t =>
    have hne := run_success_ne_empty hr
    simp only [pure_eq_ok]
    simp [hne, String.append_assoc]

lemma get_version_short (vo : Option (List PyVal)) (ma mi mc se : Nat) (k : String)
    (hk : k ∈ kindStrs)
    (hc : get_complete_version vo = .ok (mkDesc ma mi mc k se))
    (hkr : k ≠ "release") (hno : ¬(k = "alpha" ∧ se = 0)) (s : ProcState) (main : String)
    (hmain : get_main_version (some (mkDesc ma mi mc k se)) = .ok main) :
    get_version vo s =
      .ok (main ++ (if k = "alpha" then "a" else if k = "beta" then "b" else "rc")
            ++ Nat.repr se, s) := by
  fin_cases hk
  · have hse : se ≠ 0 := fun h => hno ⟨rfl, h⟩
    have hcond : (pyEq ((mkDesc ma mi mc "alpha" se).getD 3 (intV 0)) (strV "alpha") &&
        pyEq ((mkDesc ma mi mc "alpha" se).getD 4 (intV 0)) (intV 0)) = false := by
      show (("alpha" == "alpha") && ((se : Int) == 0)) = false
      have : ((se : Int) == 0) = false := by
        rw [beq_eq_false_iff_ne]
        exact_mod_cast hse
      rw [this, Bool.and_false]
    simp only [get_version, hc, hmain, ok_bind]
    rw [hcond]
    rfl
  · simp only [get_version, hc, hmain, ok_bind]
    rfl
  · simp only [get_version, hc, hmain, ok_bind]
    rfl
  · exact absurd rfl hkr

lemma get_version_release (vo : Option (List PyVal)) (ma mi mc se : Nat)
    (hc : get_complete_version vo = .ok (mkDesc ma mi mc "release" se))
    (s : ProcState) (main : String)
    (hmain : get_main_version (some (mkDesc ma mi mc "release" se)) = .ok main) :
    get_version vo s = .ok (main, s) := by
  simp only [get_version, hc, hmain, ok_bind]
  rfl

lemma get_version_dev_state (vo : Option (List PyVal)) (ma mi mc : Nat)
    (hc : get_complete_version vo = .ok (mkDesc ma mi mc "alpha" 0))
    (s : ProcState) (main : String)
    (hmain : get_main_version (some (mkDesc ma mi mc "alpha" 0)) = .ok main) :
    ∃ out, get_version vo s = .ok (out, (get_git_changeset s).2) := by
  simp only [get_version, hc, hmain, ok_bind]
  rw [if_pos (show (pyEq ((mkDesc ma mi mc "alpha" 0).getD 3 (intV 0)) (strV "alpha") &&
      pyEq ((mkDesc ma mi mc "alpha" 0).getD 4 (intV 0)) (intV 0)) = true from rfl)]
  cases (get_git_changeset s).1 with
  | none => exact ⟨main, rfl⟩
  | some t =>
    cases ht : t.isEmpty
    · exact ⟨main ++ ".dev" ++ t, by simp [ht, pure_eq_ok]⟩
    · exact ⟨main, by simp [ht, pure_eq_ok]⟩

lemma call_queryCount (s : ProcState) :
    (get_git_changeset s).2.queryCount = s.queryCount + 1 := by
  cases h : s.cache with
  | none => rw [call_of_cache_none h]
  | some v => rw [call_of_cache_some h]

/-! Lemmas about `splitOnDot` and digit groups. -/

lemma ne_dot_of_isDigit {c : Char} (h : c.isDigit = true) : c ≠ '.' := by
  intro hc
  rw [hc] at h
  exact absurd h (by decide)

lemma splitOnDot_no_dot (a : List Char) (ha : ∀ c ∈ a, c ≠ '.') :
    splitOnDot a = [a] := by
  induction a with
  | nil => rfl
  | cons c a ih =>
    rw [splitOnDot, if_neg (ha c (by simp)), ih (fun x hx => ha x (by simp [hx]))]

lemma splitOnDot_append (a r : List Char) (ha : ∀ c ∈ a, c ≠ '.') :
    splitOnDot (a ++ '.' :: r) = a :: splitOnDot r := by
  induction a with
  | nil =>
    rw [List.nil_append, splitOnDot, if_pos rfl]
  | cons c a ih =>
    rw [List.cons_append, splitOnDot, if_neg (ha c (by simp)),
      ih (fun x hx => ha x (by simp [hx]))]

lemma repr_toList_ne_nil (n : Nat) : (Nat.repr n).toList ≠ [] := by
  intro h
  have h1 := repr_length_eq n
  have h2 := numDigits_pos n
  have h3 : (Nat.repr n).length = (Nat.repr n).toList.length := rfl
  rw [h, List.length_nil] at h3
  omega

lemma isDigitGroup_repr (n : Nat) : isDigitGroup (Nat.repr n).toList = true := by
  rw [isDigitGroup, Bool.and_eq_true]
  constructor
  · cases hl : (Nat.repr n).toList with
    | nil => exact absurd hl (repr_toList_ne_nil n)
    | cons c l => rfl
  · rw [List.all_eq_true]
    intro c hc
    exact repr_digits n c hc

lemma repr_toList_no_dot (n : Nat) : ∀ c ∈ (Nat.repr n).toList, c ≠ '.' :=
  fun c hc => ne_dot_of_isDigit (repr_digits n c hc)

/-! Lemma placing the UTC year of a nonnegative timestamp at 1970 or later. -/

lemma year_ge_of_ts_nonneg {ts : Int} {dt : DateTimeUTC} (hts : 0 ≤ ts)
    (h : fromtimestampUTC ts = some dt) : 1000 ≤ dt.year := by
  simp only [fromtimestampUTC] at h
  split at h
  case isTrue hy =>
    injection h with h
    subst h
    simp only [civilFromDays] at hy ⊢
    have hdays : 0 ≤ ts / 86400 := Int.ediv_nonneg hts (by norm_num)
    split at hy <;> split <;> omega
  case isFalse hy => exact absurd h (by simp)

/-! Claim theorems. -/

/-- C1: for every valid 5-element descriptor, `get_version` returns the main
version string with a suffix determined by exactly three cases: if
`release_kind` is `"alpha"` and `release_serial` is `0`, the suffix is
`".dev"` followed by the changeset timestamp when the changeset resolver
returns one and empty when it does not; otherwise, if `release_kind` is not
`"release"`, the suffix is the short code (alpha→"a", beta→"b", rc→"rc")
followed by the release serial; otherwise (`release_kind` is `"release"`) the
suffix is empty. -/
theorem get_version_suffix_cases (ma mi mc se : Nat) (k : String)
    (hk : k ∈ kindStrs) (s : ProcState) (hs : StateWF s) :
    ∃ main, get_main_version (some (mkDesc ma mi mc k se)) = .ok main ∧
      get_version (some (mkDesc ma mi mc k se)) s =
        (if k = "alpha" ∧ se = 0 then
          .ok (main ++ (match (gitChangesetRun s.env).1 with
                | some t => ".dev" ++ t
                | none => ""), (get_git_changeset s).2)
        else if k ≠ "release" then
          .ok (main ++ ((if k = "alpha" then "a" else if k = "beta" then "b" else "rc")
                ++ Nat.repr se), s)
        else .ok (main, s)) := by
  refine ⟨_, main_eval ma mi mc se k hk, ?_⟩
  by_cases h1 : k = "alpha" ∧ se = 0
  · obtain ⟨hk1, hse⟩ := h1
    subst hk1
    subst hse
    rw [if_pos ⟨rfl, rfl⟩]
    exact get_version_dev _ ma mi mc (complete_mkDesc ma mi mc 0 "alpha" hk) s hs _
      (main_eval ma mi mc 0 "alpha" hk)
  · rw [if_neg h1]
    by_cases h2 : k = "release"
    · subst h2
      rw [if_neg (by simp)]
      exact get_version_release _ ma mi mc se (complete_mkDesc ma mi mc se "release" hk) s _
        (main_eval ma mi mc se "release" hk)
    · rw [if_pos h2]
      rw [get_version_short _ ma mi mc se k hk (complete_mkDesc ma mi mc se k hk) h2 h1 s _
        (main_eval ma mi mc se k hk)]
      rw [String.append_assoc]

/-- Witness for C1: the descriptor (2,0,0,beta,3) in a fresh process. -/
theorem get_version_suffix_cases_witness :
    ∃ main, get_main_version (some (mkDesc 2 0 0 "beta" 3)) = .ok main ∧
      get_version (some (mkDesc 2 0 0 "beta" 3)) (initState ⟨true, "x"⟩) =
        (if ("beta" : String) = "alpha" ∧ (3 : Nat) = 0 then
          .ok (main ++ (match (gitChangesetRun (initState ⟨true, "x"⟩).env).1 with
                | some t => ".dev" ++ t
                | none => ""), (get_git_changeset (initState ⟨true, "x"⟩)).2)
        else if ("beta" : String) ≠ "release" then
          .ok (main ++ ((if ("beta" : String) = "alpha" then "a"
                else if ("beta" : String) = "beta" then "b" else "rc")
                ++ Nat.repr 3), initState ⟨true, "x"⟩)
        else .ok (main, initState ⟨true, "x"⟩)) :=
  get_version_suffix_cases 2 0 0 3 "beta" (by simp [kindStrs]) (initState ⟨true, "x"⟩)
    (StateWF_init _)

/-- C2: `get_complete_version` on a supplied descriptor fails with the
assertion-style contract error exactly when the list's length is not 5 or its
element at index 3 (the `release_kind`) is not one of the four admissible
literals; a supplied 5-element descriptor with a valid kind is accepted
without error. -/
theorem get_complete_version_validation (v : List PyVal) :
    (get_complete_version (some v) = .error "AssertionError" ↔
      ¬(v.length = 5 ∧ v.getD 3 (intV 0) ∈ kindLits)) ∧
    (v.length = 5 ∧ v.getD 3 (intV 0) ∈ kindLits →
      get_complete_version (some v) = .ok v) := by
  by_cases h5 : v.length = 5 <;> by_cases hm : v.getD 3 (intV 0) ∈ kindLits <;>
    simp [get_complete_version, h5, hm]

/-- Witness for C2 at the wrong-length tuple (1, 2). -/
theorem get_complete_version_validation_witness :
    (get_complete_version (some [intV 1, intV 2]) = .error "AssertionError" ↔
      ¬(([intV 1, intV 2] : List PyVal).length = 5 ∧
        ([intV 1, intV 2] : List PyVal).getD 3 (intV 0) ∈ kindLits)) ∧
    (([intV 1, intV 2] : List PyVal).length = 5 ∧
        ([intV 1, intV 2] : List PyVal).getD 3 (intV 0) ∈ kindLits →
      get_complete_version (some [intV 1, intV 2]) = .ok [intV 1, intV 2]) :=
  get_complete_version_validation [intV 1, intV 2]

/-- C3: `get_git_changeset` is memoized: in a fresh process, each of `n + 1`
successive calls returns a value identical to the first call's result
(including a cached absent outcome), the underlying body runs exactly once,
and at most one subprocess is launched, regardless of `n`. -/
theorem git_changeset_memoized (env : GitEnv) (n : Nat) :
    (gitCalls (n + 1) (initState env)).1 =
        List.replicate (n + 1) (get_git_changeset (initState env)).1 ∧
      (gitCalls (n + 1) (initState env)).2.runCount = 1 ∧
      (gitCalls (n + 1) (initState env)).2.subprocCount ≤ 1 := by
  have h0 : (initState env).cache = none := rfl
  have hfill := call_of_cache_none h0
  rw [gitCalls]
  simp only [hfill]
  rw [gitCalls_cached n _ (gitChangesetRun (initState env).env).1 rfl]
  refine ⟨?_, ?_, ?_⟩
  · simp [List.replicate_succ]
  · rfl
  · simp only [initState]
    split <;> omega

/-- Witness for C3: two successive calls in a fresh process whose captured
output is unparsable (a cached absent outcome). -/
theorem git_changeset_memoized_witness :
    (gitCalls (1 + 1) (initState ⟨true, "bogus"⟩)).1 =
        List.replicate (1 + 1) (get_git_changeset (initState ⟨true, "bogus"⟩)).1 ∧
      (gitCalls (1 + 1) (initState ⟨true, "bogus"⟩)).2.runCount = 1 ∧
      (gitCalls (1 + 1) (initState ⟨true, "bogus"⟩)).2.subprocCount ≤ 1 :=
  git_changeset_memoized ⟨true, "bogus"⟩ 1

/-- C4: for every valid descriptor, `get_main_version` joins elements 0–1 with
`"."` when element 2 (micro) is 0, and joins elements 0–2 with `"."` when
micro is nonzero. -/
theorem get_main_version_parts (ma mi mc se : Nat) (k : String) (hk : k ∈ kindStrs) :
    get_main_version (some (mkDesc ma mi mc k se)) =
      .ok (if mc = 0 then Nat.repr ma ++ "." ++ Nat.repr mi
           else Nat.repr ma ++ "." ++ Nat.repr mi ++ "." ++ Nat.repr mc) :=
  main_eval ma mi mc se k hk

/-- Witness for C4: the spec's two examples,
`get_main_version((1,2,0,"release",0)) = "1.2"` and
`get_main_version((1,2,3,"release",0)) = "1.2.3"`. -/
theorem get_main_version_parts_witness :
    get_main_version (some (mkDesc 1 2 0 "release" 0)) = .ok "1.2" ∧
      get_main_version (some (mkDesc 1 2 3 "release" 0)) = .ok "1.2.3" := by
  constructor
  · have h := get_main_version_parts 1 2 0 0 "release" (by simp [kindStrs])
    rw [h]
    rfl
  · have h := get_main_version_parts 1 2 3 0 "release" (by simp [kindStrs])
    rw [h]
    rfl

/-- C5: changeset unavailability is recovered as an absent result, never an
error: with no source location the resolver returns absent immediately without
invoking a subprocess, and when the captured output does not parse as an
integer it returns absent. -/
theorem changeset_unavailable_recovered (env : GitEnv)
    (h : env.hasFile = false ∨ pyInt? env.stdout = none) :
    (gitChangesetRun env).1 = none ∧
      (env.hasFile = false → gitChangesetRun env = (none, false)) := by
  constructor
  · rcases h with h | h
    · simp [gitChangesetRun, h]
    · cases hf : env.hasFile
      · simp [gitChangesetRun, hf]
      · simp [gitChangesetRun, hf, h]
  · intro h0
    simp [gitChangesetRun, h0]

/-- Witness for C5: a process with no backing source file. -/
theorem changeset_unavailable_recovered_witness :
    (gitChangesetRun ⟨false, "x"⟩).1 = none ∧
      ((GitEnv.mk false "x").hasFile = false → gitChangesetRun ⟨false, "x"⟩ = (none, false)) :=
  changeset_unavailable_recovered ⟨false, "x"⟩ (Or.inl rfl)

/-- C8: `get_version` queries the changeset resolver — and hence may invoke a
subprocess — if and only if the completed descriptor has `release_kind`
`"alpha"` and `release_serial` `0`; in every other branch it returns the
process state unchanged, i.e. performs no side effects. -/
theorem get_version_effects (vo : Option (List PyVal)) (ma mi mc se : Nat) (k : String)
    (hk : k ∈ kindStrs) (s : ProcState)
    (hc : get_complete_version vo = .ok (mkDesc ma mi mc k se)) :
    (k = "alpha" ∧ se = 0 →
      ∃ out, get_version vo s = .ok (out, (get_git_changeset s).2) ∧
        (get_git_changeset s).2.queryCount = s.queryCount + 1) ∧
    (¬(k = "alpha" ∧ se = 0) →
      ∃ out, get_version vo s = .ok (out, s)) := by
  constructor
  · rintro ⟨rfl, rfl⟩
    obtain ⟨out, hout⟩ := get_version_dev_state vo ma mi mc hc s _
      (main_eval ma mi mc 0 "alpha" hk)
    exact ⟨out, hout, call_queryCount s⟩
  · intro hno
    by_cases h2 : k = "release"
    · subst h2
      exact ⟨_, get_version_release vo ma mi mc se hc s _ (main_eval ma mi mc se "release" hk)⟩
    · exact ⟨_, get_version_short vo ma mi mc se k hk hc h2 hno s _
        (main_eval ma mi mc se k hk)⟩

/-- Witness for C8: the descriptor (2,0,0,alpha,0) in a fresh process. -/
theorem get_version_effects_witness :
    (("alpha" : String) = "alpha" ∧ (0 : Nat) = 0 →
      ∃ out, get_version (some (mkDesc 2 0 0 "alpha" 0)) (initState ⟨true, "1704110400"⟩) =
          .ok (out, (get_git_changeset (initState ⟨true, "1704110400"⟩)).2) ∧
        (get_git_changeset (initState ⟨true, "1704110400"⟩)).2.queryCount =
          (initState ⟨true, "1704110400"⟩).queryCount + 1) ∧
    (¬(("alpha" : String) = "alpha" ∧ (0 : Nat) = 0) →
      ∃ out, get_version (some (mkDesc 2 0 0 "alpha" 0)) (initState ⟨true, "1704110400"⟩) =
        .ok (out, initState ⟨true, "1704110400"⟩)) :=
  get_version_effects (some (mkDesc 2 0 0 "alpha" 0)) 2 0 0 0 "alpha" (by simp [kindStrs])
    (initState ⟨true, "1704110400"⟩) (by rfl)

/-- C9: `get_complete_version` is the identity on supplied valid 5-element
descriptors, and substitutes the package-wide default only when the argument
is omitted. -/
theorem get_complete_version_identity (v : List PyVal) (h5 : v.length = 5)
    (hm : v.getD 3 (intV 0) ∈ kindLits) :
    get_complete_version (some v) = .ok v ∧ get_complete_version none = .ok VERSION := by
  refine ⟨?_, rfl⟩
  simp only [get_complete_version]
  rw [if_pos h5, if_pos hm]

/-- Witness for C9: the descriptor (1,2,3,rc,4). -/
theorem get_complete_version_identity_witness :
    get_complete_version (some (mkDesc 1 2 3 "rc" 4)) = .ok (mkDesc 1 2 3 "rc" 4) ∧
      get_complete_version none = .ok VERSION :=
  get_complete_version_identity (mkDesc 1 2 3 "rc" 4) (by rfl) (by decide)

/-- C10: every `release_kind` that can reach `get_version`'s non-release
branch under the validity precondition — alpha, beta or rc — is a key of the
short-code mapping, so the lookup cannot fail. -/
theorem suffix_mapping_total (k : String) (hk : k ∈ kindStrs) (hkr : k ≠ "release") :
    (suffixMapping (strV k)).isSome = true := by
  fin_cases hk
  · rfl
  · rfl
  · rfl
  · exact absurd rfl hkr

/-- Witness for C10 at kind "beta". -/
theorem suffix_mapping_total_witness :
    (suffixMapping (strV "beta")).isSome = true :=
  suffix_mapping_total "beta" (by simp [kindStrs]) (by decide)

lemma dot_toList : ".".toList = ['.'] := rfl

/-- C7: for every valid descriptor, the string returned by `get_main_version`
matches the regular expression `^\d+\.\d+(\.\d+)?$`. -/
theorem main_version_matches_regex (ma mi mc se : Nat) (k : String) (hk : k ∈ kindStrs)
    (out : String) (hout : get_main_version (some (mkDesc ma mi mc k se)) = .ok out) :
    matchesMainVersionRe out = true := by
  rw [main_eval ma mi mc se k hk] at hout
  injection hout with hout
  subst hout
  by_cases hmc : mc = 0
  · rw [if_pos hmc]
    have h1 : (Nat.repr ma ++ "." ++ Nat.repr mi).toList
        = (Nat.repr ma).toList ++ '.' :: (Nat.repr mi).toList := by
      simp only [toList_append, dot_toList, List.append_assoc, List.cons_append,
        List.nil_append]
    rw [matchesMainVersionRe, h1,
      splitOnDot_append _ _ (repr_toList_no_dot ma),
      splitOnDot_no_dot _ (repr_toList_no_dot mi)]
    show (isDigitGroup (Nat.repr ma).toList && isDigitGroup (Nat.repr mi).toList) = true
    rw [isDigitGroup_repr, isDigitGroup_repr]
    rfl
  · rw [if_neg hmc]
    have h1 : (Nat.repr ma ++ "." ++ Nat.repr mi ++ "." ++ Nat.repr mc).toList
        = (Nat.repr ma).toList ++ '.' ::
            ((Nat.repr mi).toList ++ '.' :: (Nat.repr mc).toList) := by
      simp only [toList_append, dot_toList, List.append_assoc, List.cons_append,
        List.nil_append]
    rw [matchesMainVersionRe, h1,
      splitOnDot_append _ _ (repr_toList_no_dot ma),
      splitOnDot_append _ _ (repr_toList_no_dot mi),
      splitOnDot_no_dot _ (repr_toList_no_dot mc)]
    show (isDigitGroup (Nat.repr ma).toList && isDigitGroup (Nat.repr mi).toList &&
      isDigitGroup (Nat.repr mc).toList) = true
    rw [isDigitGroup_repr, isDigitGroup_repr, isDigitGroup_repr]
    rfl

/-- Witness for C7 at the descriptor (1,2,3,release,0), whose main version is
"1.2.3". -/
theorem main_version_matches_regex_witness :
    matchesMainVersionRe "1.2.3" = true :=
  main_version_matches_regex 1 2 3 0 "release" (by simp [kindStrs]) "1.2.3" (by rfl)

/-- Counterexample to C6 as stated: with captured output "-62135596800" (the
Unix timestamp of 0001-01-01 UTC) the resolution succeeds and returns
"10101000000", a string of 11 characters rather than 14, because `%Y` does
not zero-pad the year on the reference platform. -/
theorem git_changeset_14_digit_counterexample :
    (gitChangesetRun ⟨true, "-62135596800"⟩).1 = some "10101000000" ∧
      ¬("10101000000".length = 14) := by
  constructor
  · decide
  · decide

/-- C6 (amended): whenever `get_git_changeset`'s body succeeds, the returned
value is a string of decimal digits whose length is 10 plus the number of
digits of the unpadded UTC year, hence between 11 and 14; it is exactly 14
precisely when the timestamp's UTC year is at least 1000, and in particular
for every nonnegative timestamp (every timestamp of a commit made after
1970). -/
theorem git_changeset_success_digits (env : GitEnv) (t : String)
    (h : (gitChangesetRun env).1 = some t) :
    t.toList.all Char.isDigit = true ∧ 11 ≤ t.length ∧ t.length ≤ 14 ∧
      ∀ ts dt, pyInt? env.stdout = some ts → fromtimestampUTC ts = some dt →
        (t.length = 14 ↔ 1000 ≤ dt.year) ∧ (0 ≤ ts → t.length = 14) := by
  obtain ⟨hdig, hlen1, hlen2⟩ := run_success_shape h
  refine ⟨List.all_eq_true.mpr hdig, hlen1, hlen2, ?_⟩
  intro ts dt hp hf
  obtain ⟨ts0, dt0, hp0, hf0, rfl⟩ := gitChangesetRun_success h
  have hts : ts = ts0 := Option.some_inj.mp (hp0.symm.trans hp) |>.symm
  subst hts
  have hdt : dt = dt0 := Option.some_inj.mp (hf0.symm.trans hf) |>.symm
  subst hdt
  obtain ⟨hy1, hy2, hm, hd, hh, hmin, hsec⟩ := fromtimestampUTC_fields hf
  have hL : (strftimeYmdHMS dt).length = numDigits dt.year + 10 :=
    strftime_length dt hm hd hh hmin hsec
  have p3 : (10 : Nat) ^ 3 = 1000 := by norm_num
  have p4 : (10 : Nat) ^ 4 = 10000 := by norm_num
  constructor
  · constructor
    · intro h14
      by_contra hlt
      have : numDigits dt.year ≤ 3 := by
        have := numDigits_le_of_lt_pow 2 dt.year (by rw [show (2:Nat)+1 = 3 from rfl, p3]; omega)
        omega
      omega
    · intro hge
      have hge4 : 4 ≤ numDigits dt.year := by
        have := numDigits_ge_of_pow_le 3 dt.year (by rw [p3]; omega)
        omega
      have hle4 : numDigits dt.year ≤ 4 := by
        have := numDigits_le_of_lt_pow 3 dt.year (by rw [show (3:Nat)+1 = 4 from rfl, p4]; omega)
        omega
      omega
  · intro hts0
    have hy := year_ge_of_ts_nonneg hts0 hf
    have hge4 : 4 ≤ numDigits dt.year := by
      have := numDigits_ge_of_pow_le 3 dt.year (by rw [p3]; omega)
      omega
    have hle4 : numDigits dt.year ≤ 4 := by
      have := numDigits_le_of_lt_pow 3 dt.year (by rw [show (3:Nat)+1 = 4 from rfl, p4]; omega)
      omega
    omega

/-- Witness for the amended C6 at captured output "1704110400"
(2024-01-01 12:00:00 UTC), where the result is "20240101120000". -/
theorem git_changeset_success_digits_witness :
    "20240101120000".toList.all Char.isDigit = true ∧
      11 ≤ "20240101120000".length ∧ "20240101120000".length ≤ 14 ∧
      ∀ ts dt, pyInt? (GitEnv.mk true "1704110400").stdout = some ts →
        fromtimestampUTC ts = some dt →
        ("20240101120000".length = 14 ↔ 1000 ≤ dt.year) ∧
          (0 ≤ ts → "20240101120000".length = 14) :=
  git_changeset_success_digits ⟨true, "1704110400"⟩ "20240101120000" (by decide)

end DoxHub
